import Mathlib

/-!
Verification of the quantitative core of a Sanger-sequencing QC tool.

The development shallowly embeds the trimming engine (`trim.py`), the
ambiguous-base classifier (`ambiguous_calling.py`) and the per-read QC
metrics calculator (`qc.py`).  Python integers are modelled by `ℤ`/`ℕ`,
Python floats by exact rationals `ℚ` (and by `ℝ` for the Phred error
sums, which use a real power), lists by `List`, and raised exceptions by
`Except`.  Python slicing `l[a:b]` is modelled by the `pySlice*`
functions below with Python's clamping semantics.
-/

namespace SangerQC

/-! ## Trimming engine: `trim.py` -/

/-- Loop state of `trim_mott` (`trim.py` lines 30-34): the running
maximum `max_sum`, the running window sum `cur_sum`, the recorded best
window `[bestStart, bestEnd)` and the current window start. -/
structure MottState where
  maxSum : ℤ
  curSum : ℤ
  bestStart : ℕ
  bestEnd : ℕ
  curStart : ℕ
deriving Repr, DecidableEq

/-- Initial loop state of `trim_mott`. -/
def mottInit : MottState := ⟨0, 0, 0, 0, 0⟩

/-- One iteration of the `trim_mott` loop (`trim.py` lines 36-46):
add the weight, reset the window when the running sum is non-positive,
record a new best window on a strict improvement. -/
def mottStep (s : MottState) (i : ℕ) (w : ℤ) : MottState :=
  if s.curSum + w ≤ 0 then
    { s with curSum := 0, curStart := i + 1 }
  else if s.maxSum < s.curSum + w then
    { maxSum := s.curSum + w, curSum := s.curSum + w, bestStart := s.curStart,
      bestEnd := i + 1, curStart := s.curStart }
  else
    { s with curSum := s.curSum + w }

/-- The `trim_mott` scan over the weight list, carrying the 0-based
index of the element being processed. -/
def mottLoop : MottState → ℕ → List ℤ → MottState
  | s, _, [] => s
  | s, i, w :: ws => mottLoop (mottStep s i w) (i + 1) ws

/-- Weights `q - threshold` (`trim.py` line 28). -/
def mottWeights (quals : List ℤ) (threshold : ℤ) : List ℤ :=
  quals.map (fun q => q - threshold)

/-- `trim_mott` (`trim.py` lines 6-48): maximum-score-window trimming.
Returns 0-based `[start, end)` indices, `(0, 0)` when the input is
empty or every window has non-positive score. -/
def trim_mott (quals : List ℤ) (threshold : ℤ) : ℕ × ℕ :=
  if quals = [] then (0, 0)
  else
    let fin := mottLoop mottInit 0 (mottWeights quals threshold)
    (fin.bestStart, fin.bestEnd)

/-- Sum of the first `k` entries of a weight list. -/
def prefixSum (W : List ℤ) (k : ℕ) : ℤ := ((W.take k).sum)

/-- Weighted sum of the contiguous window `[i, j)` of a weight list. -/
def wsum (W : List ℤ) (i j : ℕ) : ℤ := prefixSum W j - prefixSum W i

/-- Index of the first entry with quality at least the threshold; equal
to the length when there is none.  Models
`next((i for i, q in enumerate(quals) if q >= threshold), n)`
(`trim.py` line 74). -/
def findFirstGE (threshold : ℤ) : List ℤ → ℕ
  | [] => 0
  | q :: qs => if threshold ≤ q then 0 else findFirstGE threshold qs + 1

/-- Index of the last entry with quality at least the threshold; `-1`
when there is none.  Models
`next((i for i in range(n - 1, -1, -1) if quals[i] >= threshold), -1)`
(`trim.py` line 77). -/
def findLastGE (threshold : ℤ) : List ℤ → ℤ
  | [] => -1
  | q :: qs =>
    if 0 ≤ findLastGE threshold qs then findLastGE threshold qs + 1
    else if threshold ≤ q then 0 else -1

/-- `trim_ends` (`trim.py` lines 51-83): hard clip to the first and last
base meeting the threshold, `(0, 0)` when no base qualifies. -/
def trim_ends (quals : List ℤ) (threshold : ℤ) : ℕ × ℕ :=
  if quals = [] then (0, 0)
  else
    let n := quals.length
    let start := findFirstGE threshold quals
    let e := findLastGE threshold quals
    if n ≤ start ∨ e < 0 ∨ e < (start : ℤ) then (0, 0)
    else (start, (e + 1).toNat)

/-- Python slice `l[a:b]` for non-negative bounds. -/
def pySliceNat (l : List α) (a b : ℕ) : List α := (l.take b).drop a

/-- `apply_trim` (`trim.py` lines 86-109): dispatch on the method name,
raising `ValueError` (modelled as `Except.error`) for an unknown method,
then slice sequence and qualities by the returned half-open range. -/
def apply_trim (seq : List Char) (quals : List ℤ) (method : String)
    (threshold : ℤ) : Except String (List Char × List ℤ × ℕ × ℕ) :=
  if method = "mott" then
    let r := trim_mott quals threshold
    Except.ok (pySliceNat seq r.1 r.2, pySliceNat quals r.1 r.2, r.1, r.2)
  else if method = "ends" then
    let r := trim_ends quals threshold
    Except.ok (pySliceNat seq r.1 r.2, pySliceNat quals r.1 r.2, r.1, r.2)
  else
    Except.error ("Unknown trimming method: " ++ method)

/-! ## Ambiguous base calling: `ambiguous_calling.py` -/

/-- `AmbiguousCallingConfig` (`ambiguous_calling.py` lines 40-59). -/
structure AmbiguousCallingConfig where
  q_min_noise : ℤ
  snr_min : ℚ
  spr_noise_max : ℚ
  spr_het_low : ℚ
  spr_het_high : ℚ
  spr_unbalanced : ℚ
  q_confident : ℤ
  q_ambig : ℤ
  clonal_context : Bool
  peak_spacing_tolerance : ℚ
  peak_window : ℕ
deriving Repr, DecidableEq

/-- The default configuration values of `AmbiguousCallingConfig`. -/
def defaultConfig : AmbiguousCallingConfig :=
  { q_min_noise := 12, snr_min := 4, spr_noise_max := 1/5,
    spr_het_low := 33/100, spr_het_high := 67/100, spr_unbalanced := 85/100,
    q_confident := 30, q_ambig := 20, clonal_context := true,
    peak_spacing_tolerance := 1/5, peak_window := 3 }

/-- `BaseCall` (`ambiguous_calling.py` lines 62-77).  The code records
`call_mode` as one of the strings `'single'`, `'ambiguous'`, `'N'`
(the last is the "no-call" mode). -/
structure BaseCall where
  position : ℕ
  called_base : Char
  primary_base : Char
  secondary_base : Char
  primary_intensity : ℚ
  secondary_intensity : ℚ
  spr : ℚ
  snr : ℚ
  quality : ℤ
  call_mode : String
  allele_fraction : ℚ
  flags : List String
deriving Repr, DecidableEq

instance : Inhabited BaseCall :=
  ⟨{ position := 0, called_base := 'N', primary_base := 'N',
     secondary_base := 'N', primary_intensity := 0,
     secondary_intensity := 0, spr := 0, snr := 0, quality := 0,
     call_mode := "N", allele_fraction := 0, flags := [] }⟩

/-- `_get_iupac_code` (`ambiguous_calling.py` lines 412-425): IUPAC
ambiguity code for the unordered pair of (uppercased) bases, `'N'` for
any pair outside the six canonical two-base sets. -/
def getIupacCode (base1 base2 : Char) : Char :=
  let a := base1.toUpper
  let b := base2.toUpper
  if (a = 'A' ∧ b = 'G') ∨ (a = 'G' ∧ b = 'A') then 'R'
  else if (a = 'C' ∧ b = 'T') ∨ (a = 'T' ∧ b = 'C') then 'Y'
  else if (a = 'G' ∧ b = 'C') ∨ (a = 'C' ∧ b = 'G') then 'S'
  else if (a = 'A' ∧ b = 'T') ∨ (a = 'T' ∧ b = 'A') then 'W'
  else if (a = 'G' ∧ b = 'T') ∨ (a = 'T' ∧ b = 'G') then 'K'
  else if (a = 'A' ∧ b = 'C') ∨ (a = 'C' ∧ b = 'A') then 'M'
  else 'N'

/-- Allele fraction `H1 / (H1 + H2)` when the total signal is positive,
else `0` (`ambiguous_calling.py` lines 353-355). -/
def alleleFracOf (H1 H2 : ℚ) : ℚ :=
  if 0 < H1 + H2 then H1 / (H1 + H2) else 0

/-- `_apply_calling_criteria` (`ambiguous_calling.py` lines 326-410):
the ordered six-rule decision table.  Returns
`(called_base, call_mode, allele_fraction, flags)`; the code encodes
the no-call mode as the string `"N"`. -/
def applyCallingCriteria (cfg : AmbiguousCallingConfig) (b1 b2 : Char)
    (H1 H2 spr snr : ℚ) (quality : ℤ) : Char × String × ℚ × List String :=
  if quality < cfg.q_min_noise ∨ snr < cfg.snr_min then
    ('N', "N", alleleFracOf H1 H2, ["low_quality"])
  else if cfg.q_confident ≤ quality ∧ spr < cfg.spr_noise_max then
    (b1, "single", alleleFracOf H1 H2, [])
  else if (cfg.spr_noise_max ≤ spr ∧ spr < cfg.spr_het_low) ∧ cfg.q_ambig ≤ quality then
    if cfg.clonal_context then
      (b1, "single", alleleFracOf H1 H2, ["minor_secondary"])
    else
      (getIupacCode b1 b2, "ambiguous", alleleFracOf H1 H2, [])
  else if (cfg.spr_het_low ≤ spr ∧ spr ≤ cfg.spr_het_high) ∧
      cfg.q_ambig ≤ quality ∧ cfg.snr_min ≤ snr then
    (getIupacCode b1 b2, "ambiguous", alleleFracOf H1 H2, ["heterozygous"])
  else if (cfg.spr_het_high < spr ∧ spr < cfg.spr_unbalanced) ∧ cfg.q_ambig ≤ quality then
    if ¬ cfg.clonal_context then
      (getIupacCode b1 b2, "ambiguous", alleleFracOf H1 H2, ["unbalanced_mixture"])
    else
      (b1, "single", alleleFracOf H1 H2, ["uncertain_mixture"])
  else if cfg.spr_unbalanced ≤ spr then
    ('N', "N", alleleFracOf H1 H2, ["unclear_primary"])
  else
    (b1, "single", alleleFracOf H1 H2, [])

/-- The classifier applied to explicit peak intensities: computes
`spr = H2 / H1` when `H1 > 0`, else `0` (`ambiguous_calling.py`
line 256) and then applies the six-rule table (line 260). -/
def callWithIntensities (cfg : AmbiguousCallingConfig) (b1 b2 : Char)
    (H1 H2 snr : ℚ) (quality : ℤ) : Char × String × ℚ × List String :=
  applyCallingCriteria cfg b1 b2 H1 H2 (if 0 < H1 then H2 / H1 else 0) snr quality

/-- One position of `_fallback_calling` (`ambiguous_calling.py`
lines 444-474): quality-only calling used when no trace data is
available. -/
def fallbackCallOne (cfg : AmbiguousCallingConfig) (pos : ℕ) (base : Char)
    (qual : ℤ) : BaseCall :=
  if qual < cfg.q_min_noise then
    { position := pos, called_base := 'N', primary_base := base,
      secondary_base := 'N', primary_intensity := 0,
      secondary_intensity := 0, spr := 0, snr := 0, quality := qual,
      call_mode := "N", allele_fraction := 1,
      flags := ["low_quality", "no_trace_data"] }
  else if cfg.q_confident ≤ qual then
    { position := pos, called_base := base, primary_base := base,
      secondary_base := 'N', primary_intensity := 0,
      secondary_intensity := 0, spr := 0, snr := 0, quality := qual,
      call_mode := "single", allele_fraction := 1,
      flags := ["no_trace_data"] }
  else
    { position := pos, called_base := base, primary_base := base,
      secondary_base := 'N', primary_intensity := 0,
      secondary_intensity := 0, spr := 0, snr := 0, quality := qual,
      call_mode := "single", allele_fraction := 1,
      flags := ["moderate_quality", "no_trace_data"] }

/-- `_fallback_calling` (`ambiguous_calling.py` lines 427-476): one
`BaseCall` per sequence position, with quality `0` substituted past the
end of the quality list. -/
def fallbackCalling (cfg : AmbiguousCallingConfig) (sequence : List Char)
    (qualities : List ℤ) : List BaseCall :=
  sequence.enum.map (fun pb => fallbackCallOne cfg pb.1 pb.2 (qualities.getD pb.1 0))

/-- Trace bundle extracted from an AB1 file: four channel intensity
arrays and the peak-location array (`ambiguous_calling.py`
lines 100-120). -/
structure TraceBundle where
  A : List ℚ
  C : List ℚ
  G : List ℚ
  T : List ℚ
  peak_locations : List ℤ
deriving Repr, DecidableEq

/-- Python slice `l[a:b]` (step 1) with full Python semantics: negative
bounds count from the end, and both bounds are clamped to the list. -/
def pySlice (l : List α) (a b : ℤ) : List α :=
  let n : ℤ := l.length
  let s : ℤ := if a < 0 then max 0 (n + a) else min a n
  let e : ℤ := if b < 0 then max 0 (n + b) else min b n
  (l.take e.toNat).drop s.toNat

/-- Windowed peak intensity of one channel
(`ambiguous_calling.py` lines 160-165): the sum of the raw samples over
`[trace_pos - window, trace_pos + window]` clamped to the array. -/
def getIntensity (trace : List ℚ) (tracePos : ℤ) (window : ℕ) : ℚ :=
  let start : ℤ := max 0 (tracePos - window)
  let stop : ℤ := min (trace.length : ℤ) (tracePos + window + 1)
  (pySlice trace start stop).sum

/-- `get_intensities_at_position` (`ambiguous_calling.py`
lines 129-167): the four channel intensities in insertion order
`A, C, G, T`; all zero when peak-location data is absent or the
position is out of range. -/
def getIntensitiesAtPosition (tr : TraceBundle) (position : ℕ)
    (window : ℕ) : List (Char × ℚ) :=
  if tr.peak_locations.length = 0 ∨ tr.peak_locations.length ≤ position then
    [('A', 0), ('C', 0), ('G', 0), ('T', 0)]
  else
    let p := tr.peak_locations.getD position 0
    [('A', getIntensity tr.A p window), ('C', getIntensity tr.C p window),
     ('G', getIntensity tr.G p window), ('T', getIntensity tr.T p window)]

/-- Stable insertion into a list sorted by descending intensity: the
inserted element goes before any element of equal intensity, matching
the stability of Python's `sorted(..., reverse=True)`. -/
def insertDesc (x : Char × ℚ) : List (Char × ℚ) → List (Char × ℚ)
  | [] => [x]
  | y :: ys => if y.2 ≤ x.2 then x :: y :: ys else y :: insertDesc x ys

/-- Stable sort by descending intensity, modelling
`sorted(intensities.items(), key=lambda x: x[1], reverse=True)`
(`ambiguous_calling.py` lines 246-250). -/
def sortDesc : List (Char × ℚ) → List (Char × ℚ)
  | [] => []
  | x :: xs => insertDesc x (sortDesc xs)

/-- Stable insertion into an ascending list of rationals. -/
def insertAsc (x : ℚ) : List ℚ → List ℚ
  | [] => [x]
  | y :: ys => if x ≤ y then x :: y :: ys else y :: insertAsc x ys

/-- Insertion sort of rationals in ascending order, used to model
`np.median`. -/
def sortAsc : List ℚ → List ℚ
  | [] => []
  | x :: xs => insertAsc x (sortAsc xs)

/-- `np.median`: middle element of the sorted list, or the average of
the two middle elements for even length (`0` on an empty list). -/
def npMedian (l : List ℚ) : ℚ :=
  if l = [] then 0
  else
    let s := sortAsc l
    let n := s.length
    if n % 2 = 1 then s.getD (n / 2) 0
    else (s.getD (n / 2 - 1) 0 + s.getD (n / 2) 0) / 2

/-- Noise samples of one channel around a peak
(`ambiguous_calling.py` lines 309-318): the slices
`[trace_pos - 20, trace_pos - 5)` and `[trace_pos + 5, trace_pos + 20)`
clamped to the array, each kept only when its bounds are in order. -/
def noiseWindow (trace : List ℚ) (p : ℤ) : List ℚ :=
  let beforeStart := max 0 (p - 20)
  let beforeEnd := max 0 (p - 5)
  let afterStart := min (trace.length : ℤ) (p + 5)
  let afterEnd := min (trace.length : ℤ) (p + 20)
  (if beforeStart < beforeEnd then pySlice trace beforeStart beforeEnd else []) ++
  (if afterStart < afterEnd then pySlice trace afterStart afterEnd else [])

/-- `_calculate_snr` (`ambiguous_calling.py` lines 279-324): the primary
signal divided by the median of the pooled flanking baseline samples,
`0` when there is no peak data, no sample, or a non-positive noise
floor. -/
def calculateSnr (tr : TraceBundle) (position : ℕ) (signal : ℚ) : ℚ :=
  if tr.peak_locations.length = 0 ∨ tr.peak_locations.length ≤ position then 0
  else
    let p := tr.peak_locations.getD position 0
    let samples := noiseWindow tr.A p ++ noiseWindow tr.C p ++
      noiseWindow tr.G p ++ noiseWindow tr.T p
    if samples = [] then 0
    else
      let noise := npMedian samples
      if 0 < noise then signal / noise else 0

/-- `_call_position` (`ambiguous_calling.py` lines 221-277): intensity
extraction, descending sort, `spr`/`snr` computation, the six-rule
table, and assembly of the `BaseCall` record.  The original base is
received but not used by the code. -/
def callPosition (cfg : AmbiguousCallingConfig) (tr : TraceBundle)
    (position : ℕ) (originalBase : Char) (quality : ℤ) : BaseCall :=
  let sorted := sortDesc (getIntensitiesAtPosition tr position cfg.peak_window)
  let b1 := (sorted.getD 0 ('A', 0)).1
  let H1 := (sorted.getD 0 ('A', 0)).2
  let b2 := (sorted.getD 1 ('A', 0)).1
  let H2 := (sorted.getD 1 ('A', 0)).2
  let spr := if 0 < H1 then H2 / H1 else 0
  let snr := calculateSnr tr position H1
  let r := applyCallingCriteria cfg b1 b2 H1 H2 spr snr quality
  { position := position, called_base := r.1, primary_base := b1,
    secondary_base := b2, primary_intensity := H1,
    secondary_intensity := H2, spr := spr, snr := snr,
    quality := quality, call_mode := r.2.1, allele_fraction := r.2.2.1,
    flags := r.2.2.2 }

/-- The trace-based path of `call_bases` (`ambiguous_calling.py`
lines 208-219): one `BaseCall` per sequence position, with quality `0`
substituted past the end of the quality list. -/
def callBases (cfg : AmbiguousCallingConfig) (tr : TraceBundle)
    (sequence : List Char) (qualities : List ℤ) : List BaseCall :=
  sequence.enum.map (fun pb => callPosition cfg tr pb.1 pb.2 (qualities.getD pb.1 0))

/-- A trace bundle with a negative raw sample in three channels, used to
exhibit the behaviour of the ratio computations on signed trace data. -/
def cexTrace : TraceBundle := ⟨[4], [-1], [-1], [-1], [0]⟩

/-- A trace bundle with non-negative samples in every channel. -/
def c8WitnessTrace : TraceBundle := ⟨[10, 10, 10], [1], [0], [0], [1]⟩

/-! ## QC metrics: `qc.py` -/

/-- `QCMetrics`: the record returned by `compute_qc_metrics`
(`qc.py` lines 63-80). -/
structure QCMetrics where
  sample_id : String
  source_file : String
  format : String
  raw_length : ℕ
  mean_q : ℚ
  median_q : ℚ
  pct_q20 : ℚ
  pct_q30 : ℚ
  gc_percent : ℚ
  n_count : ℕ
  expected_errors : ℝ
  hq_longest_stretch_len : ℕ
  trim_start : ℕ
  trim_end : ℕ
  trimmed_length : ℤ
  passed_minlen : String

/-- Rounding of a rational to `d` decimal places, modelling Python's
`round(x, d)` on the exact value. -/
def roundTo (d : ℕ) (x : ℚ) : ℚ := ((round (x * 10 ^ d) : ℤ) : ℚ) / 10 ^ d

/-- Rounding of a real to `d` decimal places. -/
noncomputable def roundToR (d : ℕ) (x : ℝ) : ℝ :=
  ((round (x * 10 ^ d) : ℤ) : ℝ) / 10 ^ d

/-- The GC percentage computed by `compute_qc_metrics` before rounding
(`qc.py` lines 47-52): `100 * (G + C) / (length - N)` over the
uppercased sequence, `0` when there is no non-N base. -/
def gcPercentOf (seq : List Char) : ℚ :=
  let seqUpper := seq.map Char.toUpper
  let gcCount := seqUpper.count 'G' + seqUpper.count 'C'
  let nCount := seqUpper.count 'N'
  let nonN : ℤ := (seq.length : ℤ) - nCount
  if 0 < nonN then 100 * (gcCount : ℚ) / (nonN : ℚ) else 0

/-- `_longest_hq_stretch` (`qc.py` lines 83-107): longest contiguous run
of qualities at or above the threshold. -/
def longestHqStretch (quals : List ℤ) (threshold : ℤ) : ℕ :=
  (quals.foldl
    (fun st q => if threshold ≤ q then (max st.1 (st.2 + 1), st.2 + 1) else (st.1, 0))
    ((0, 0) : ℕ × ℕ)).1

/-- Per-base expected error `10 ^ (-q / 10)` (`qc.py` line 55). -/
noncomputable def phredError (q : ℤ) : ℝ := (10 : ℝ) ^ (-(q : ℝ) / 10)

/-- `compute_qc_metrics` (`qc.py` lines 7-80).  Mean, median, the
Q20/Q30 fractions, GC percentage, N count, expected errors and the
longest high-quality stretch are computed from the full sequence and
quality vector; only `trim_start`, `trim_end`, `trimmed_length` and
`passed_minlen` depend on the trim coordinates. -/
noncomputable def computeQCMetrics (sample_id source_file file_format : String)
    (seq : List Char) (quals : List ℤ) (trim_start trim_end : ℕ)
    (qthreshold min_length : ℤ) : QCMetrics :=
  let qrat : List ℚ := quals.map (fun q => (q : ℚ))
  let qn := quals.length
  let trimmed_length : ℤ := (trim_end : ℤ) - (trim_start : ℤ)
  { sample_id := sample_id, source_file := source_file,
    format := file_format, raw_length := seq.length,
    mean_q := roundTo 2 (if 0 < qn then qrat.sum / (qn : ℚ) else 0),
    median_q := roundTo 2 (if 0 < qn then npMedian qrat else 0),
    pct_q20 := roundTo 4
      (if 0 < qn then ((quals.countP (fun q => decide (20 ≤ q))) : ℚ) / (qn : ℚ) else 0),
    pct_q30 := roundTo 4
      (if 0 < qn then ((quals.countP (fun q => decide (30 ≤ q))) : ℚ) / (qn : ℚ) else 0),
    gc_percent := roundTo 2 (gcPercentOf seq),
    n_count := (seq.map Char.toUpper).count 'N',
    expected_errors := roundToR 2
      (if 0 < qn then ((quals.map phredError).sum) else 0),
    hq_longest_stretch_len := longestHqStretch quals qthreshold,
    trim_start := trim_start, trim_end := trim_end,
    trimmed_length := trimmed_length,
    passed_minlen := if min_length ≤ trimmed_length then "yes" else "no" }

/-! ## Loop invariant of the maximum-score-window scan -/

/-- Invariant of the `trim_mott` scan after processing the first `k`
weights of `W`: the current window starts at the latest minimum of the
prefix sums, the recorded best window attains the running maximum
`maxSum`, `maxSum` dominates every window contained in the processed
prefix, the best end is the first index at which a positive maximum is
attained, and the best window is still `(0, 0)` while the maximum is
zero. -/
structure MottInv (W : List ℤ) (k : ℕ) (s : MottState) : Prop where
  curStart_le : s.curStart ≤ k
  curSum_eq : s.curSum = prefixSum W k - prefixSum W s.curStart
  curStart_min : ∀ i, i ≤ k → prefixSum W s.curStart ≤ prefixSum W i
  maxSum_nonneg : 0 ≤ s.maxSum
  bestStart_le : s.bestStart ≤ s.bestEnd
  bestEnd_le : s.bestEnd ≤ k
  maxSum_eq : s.maxSum = prefixSum W s.bestEnd - prefixSum W s.bestStart
  maxSum_ub : ∀ i j, i ≤ j → j ≤ k → prefixSum W j - prefixSum W i ≤ s.maxSum
  bestEnd_min : ∀ i j, i ≤ j → j ≤ k → 0 < s.maxSum →
    prefixSum W j - prefixSum W i = s.maxSum → s.bestEnd ≤ j
  zero_best : s.maxSum = 0 → s.bestStart = 0 ∧ s.bestEnd = 0

end SangerQC

namespace SangerQC

theorem prefixSum_nil (k : ℕ) : prefixSum [] k = 0 := by
  simp [prefixSum]

theorem prefixSum_zero (W : List ℤ) : prefixSum W 0 = 0 := rfl

theorem prefixSum_succ {W : List ℤ} {k : ℕ} {w : ℤ} {ws : List ℤ}
    (h : W.drop k = w :: ws) : prefixSum W (k + 1) = prefixSum W k + w := by
  unfold prefixSum
  rw [List.take_add, h]
  simp

theorem drop_succ_of_drop {W : List ℤ} {k : ℕ} {w : ℤ} {ws : List ℤ}
    (h : W.drop k = w :: ws) : W.drop (k + 1) = ws := by
  rw [← List.drop_drop, h]
  rfl

theorem mottInv_init (W : List ℤ) : MottInv W 0 mottInit := by
  refine ⟨Nat.le_refl 0, by simp [mottInit, prefixSum_zero], ?_, le_refl 0,
    Nat.le_refl 0, Nat.le_refl 0, by simp [mottInit, prefixSum_zero], ?_, ?_, ?_⟩
  · intro i hi
    interval_cases i
    exact le_refl _
  · intro i j hij hj
    interval_cases j
    interval_cases i
    simp [mottInit]
  · intro i j hij hj hpos
    exact absurd hpos (by simp [mottInit])
  · intro _
    exact ⟨rfl, rfl⟩

theorem mottStep_inv {W : List ℤ} {k : ℕ} {s : MottState} {w : ℤ}
    (hP : prefixSum W (k + 1) = prefixSum W k + w)
    (h : MottInv W k s) : MottInv W (k + 1) (mottStep s k w) := by
  have hcP : s.curSum + w = prefixSum W (k + 1) - prefixSum W s.curStart := by
    rw [h.curSum_eq, hP]; ring
  unfold mottStep
  by_cases h1 : s.curSum + w ≤ 0
  · rw [if_pos h1]
    refine ⟨Nat.le_refl _, by simp [sub_self], ?_, h.maxSum_nonneg,
      h.bestStart_le, h.bestEnd_le.trans (Nat.le_succ k), h.maxSum_eq, ?_, ?_,
      h.zero_best⟩
    · intro i hi
      rcases Nat.lt_succ_iff_lt_or_eq.mp (Nat.lt_succ_of_le hi) with hik | rfl
      · have h2 := h.curStart_min i (Nat.lt_succ_iff.mp hik)
        have h3 : prefixSum W (k + 1) ≤ prefixSum W s.curStart := by first | omega | (dsimp only; omega)
        first | omega | (dsimp only; omega)
      · exact le_refl _
    · intro i j hij hj
      by_cases hjk : j ≤ k
      · exact h.maxSum_ub i j hij hjk
      · have hj1 : j = k + 1 := by first | omega | (dsimp only; omega)
        subst hj1
        by_cases hik : i ≤ k
        · have h2 := h.curStart_min i hik
          have h3 := h.maxSum_nonneg
          first | omega | (dsimp only; omega)
        · have hi1 : i = k + 1 := by first | omega | (dsimp only; omega)
          subst hi1
          have h3 := h.maxSum_nonneg
          first | omega | (dsimp only; omega)
    · intro i j hij hj hpos heq
      by_cases hjk : j ≤ k
      · exact h.bestEnd_min i j hij hjk hpos heq
      · have h2 := h.bestEnd_le
        dsimp only
        omega
  · rw [if_neg h1]
    have h0 : 0 < s.curSum + w := by first | omega | (dsimp only; omega)
    by_cases h2 : s.maxSum < s.curSum + w
    · rw [if_pos h2]
      refine ⟨h.curStart_le.trans (Nat.le_succ k), hcP, ?_, le_of_lt h0,
        h.curStart_le.trans (Nat.le_succ k), Nat.le_refl _, hcP, ?_, ?_, ?_⟩
      · intro i hi
        rcases Nat.lt_succ_iff_lt_or_eq.mp (Nat.lt_succ_of_le hi) with hik | rfl
        · exact h.curStart_min i (Nat.lt_succ_iff.mp hik)
        · first | omega | (dsimp only; omega)
      · intro i j hij hj
        by_cases hjk : j ≤ k
        · have h3 := h.maxSum_ub i j hij hjk
          first | omega | (dsimp only; omega)
        · have hj1 : j = k + 1 := by first | omega | (dsimp only; omega)
          subst hj1
          by_cases hik : i ≤ k
          · have h3 := h.curStart_min i hik
            first | omega | (dsimp only; omega)
          · have hi1 : i = k + 1 := by first | omega | (dsimp only; omega)
            subst hi1
            first | omega | (dsimp only; omega)
      · intro i j hij hj hpos heq
        dsimp only at heq
        by_cases hjk : j ≤ k
        · have h3 := h.maxSum_ub i j hij hjk
          omega
        · dsimp only
          omega
      · intro h3
        dsimp only at h3
        omega
    · rw [if_neg h2]
      refine ⟨h.curStart_le.trans (Nat.le_succ k), hcP, ?_, h.maxSum_nonneg,
        h.bestStart_le, h.bestEnd_le.trans (Nat.le_succ k), h.maxSum_eq, ?_, ?_,
        h.zero_best⟩
      · intro i hi
        rcases Nat.lt_succ_iff_lt_or_eq.mp (Nat.lt_succ_of_le hi) with hik | rfl
        · exact h.curStart_min i (Nat.lt_succ_iff.mp hik)
        · first | omega | (dsimp only; omega)
      · intro i j hij hj
        by_cases hjk : j ≤ k
        · exact h.maxSum_ub i j hij hjk
        · have hj1 : j = k + 1 := by first | omega | (dsimp only; omega)
          subst hj1
          by_cases hik : i ≤ k
          · have h3 := h.curStart_min i hik
            first | omega | (dsimp only; omega)
          · have hi1 : i = k + 1 := by first | omega | (dsimp only; omega)
            subst hi1
            first | omega | (dsimp only; omega)
      · intro i j hij hj hpos heq
        have h3 := h.bestEnd_le
        by_cases hjk : j ≤ k
        · exact h.bestEnd_min i j hij hjk hpos heq
        · first | omega | (dsimp only; omega)

theorem mottLoop_inv {W : List ℤ} :
    ∀ (ws : List ℤ) (k : ℕ) (s : MottState), W.drop k = ws →
      MottInv W k s → MottInv W (k + ws.length) (mottLoop s k ws) := by
  intro ws
  induction ws with
  | nil =>
    intro k s _ h
    simpa [mottLoop] using h
  | cons w ws ih =>
    intro k s hdrop h
    have hstep := mottStep_inv (prefixSum_succ hdrop) h
    have hrec := ih (k + 1) (mottStep s k w) (drop_succ_of_drop hdrop) hstep
    have hlen : k + (w :: ws).length = (k + 1) + ws.length := by
      simp [List.length_cons]; omega
    rw [hlen]
    simpa [mottLoop] using hrec

theorem trim_mott_inv (quals : List ℤ) (T : ℤ) :
    MottInv (mottWeights quals T) (mottWeights quals T).length
      (mottLoop mottInit 0 (mottWeights quals T)) := by
  have h := mottLoop_inv (W := mottWeights quals T) (mottWeights quals T) 0
    mottInit rfl (mottInv_init _)
  simpa using h

/-- C1: the window returned by `trim_mott` has weighted sum
`Σ (q - T)` at least that of every contiguous window; every window
attaining the maximal positive sum is encountered no earlier in the
left-to-right scan (its end index is at least the returned end, so a
later window with an equal score never replaces the first-encountered
maximum); and the result is `(0, 0)` when no window has positive
weighted sum or the input is empty. -/
theorem trim_mott_correct (quals : List ℤ) (T : ℤ) :
    (trim_mott quals T).1 ≤ (trim_mott quals T).2 ∧
    (trim_mott quals T).2 ≤ quals.length ∧
    (∀ i j, i ≤ j → j ≤ quals.length →
      wsum (mottWeights quals T) i j ≤
        wsum (mottWeights quals T) (trim_mott quals T).1 (trim_mott quals T).2) ∧
    (∀ i j, i ≤ j → j ≤ quals.length → 0 < wsum (mottWeights quals T) i j →
      wsum (mottWeights quals T) i j =
        wsum (mottWeights quals T) (trim_mott quals T).1 (trim_mott quals T).2 →
      (trim_mott quals T).2 ≤ j) ∧
    ((∀ i j, i ≤ j → j ≤ quals.length → wsum (mottWeights quals T) i j ≤ 0) →
      trim_mott quals T = (0, 0)) ∧
    (quals = [] → trim_mott quals T = (0, 0)) := by
  by_cases hq : quals = []
  · subst hq
    have hw : mottWeights ([] : List ℤ) T = [] := rfl
    refine ⟨le_refl _, by simp [trim_mott], ?_, ?_, fun _ => by simp [trim_mott],
      fun _ => by simp [trim_mott]⟩
    · intro i j hij hj
      simp [hw, wsum, prefixSum_nil]
    · intro i j hij hj hpos heq
      rw [hw, wsum, prefixSum_nil, prefixSum_nil] at hpos
      omega
  · have hInv := trim_mott_inv quals T
    have hWlen : (mottWeights quals T).length = quals.length :=
      List.length_map _ _
    have hTM : trim_mott quals T =
        ((mottLoop mottInit 0 (mottWeights quals T)).bestStart,
         (mottLoop mottInit 0 (mottWeights quals T)).bestEnd) := by
      simp [trim_mott, hq]
    rw [hTM]
    dsimp only
    refine ⟨hInv.bestStart_le, hWlen ▸ hInv.bestEnd_le, ?_, ?_, ?_, fun h => absurd h hq⟩
    · intro i j hij hj
      have h1 := hInv.maxSum_ub i j hij (by omega)
      have h2 := hInv.maxSum_eq
      unfold wsum
      omega
    · intro i j hij hj hpos heq
      have h2 := hInv.maxSum_eq
      unfold wsum at hpos heq
      exact hInv.bestEnd_min i j hij (by omega) (by omega) (by omega)
    · intro hall
      have h1 := hInv.maxSum_eq
      have h2 := hall _ _ hInv.bestStart_le (hWlen ▸ hInv.bestEnd_le)
      unfold wsum at h2
      have h0 : (mottLoop mottInit 0 (mottWeights quals T)).maxSum = 0 :=
        le_antisymm (by omega) hInv.maxSum_nonneg
      obtain ⟨hbs, hbe⟩ := hInv.zero_best h0
      simp [hbs, hbe]

/-- Witness for C1: on the documented example
`trim_mott [10, 10, 30, 30, 30, 10] 20 = (2, 5)`, the full window `[0, 6)`
scores no more than the returned window; the tie rule applied at the
maximal window `[2, 5)` bounds the returned end; and the all-nonpositive
and empty cases return `(0, 0)`. -/
theorem trim_mott_correct_witness :
    wsum (mottWeights [10, 10, 30, 30, 30, 10] 20) 0 6 ≤
      wsum (mottWeights [10, 10, 30, 30, 30, 10] 20)
        (trim_mott [10, 10, 30, 30, 30, 10] 20).1
        (trim_mott [10, 10, 30, 30, 30, 10] 20).2 ∧
    (trim_mott [10, 10, 30, 30, 30, 10] 20).2 ≤ 5 ∧
    trim_mott [10] 20 = (0, 0) ∧
    trim_mott ([] : List ℤ) 20 = (0, 0) := by
  refine ⟨(trim_mott_correct [10, 10, 30, 30, 30, 10] 20).2.2.1 0 6
      (by decide) (by decide),
    (trim_mott_correct [10, 10, 30, 30, 30, 10] 20).2.2.2.1 2 5
      (by decide) (by decide) (by decide) (by decide),
    (trim_mott_correct [10] 20).2.2.2.2.1 ?_,
    (trim_mott_correct ([] : List ℤ) 20).2.2.2.2.2 rfl⟩
  intro i j hij hj
  have hj1 : j ≤ 1 := by simpa using hj
  interval_cases j <;> interval_cases i <;> decide

/-! ## Correctness of the ends-clip algorithm -/

theorem findFirstGE_le (T : ℤ) (l : List ℤ) : findFirstGE T l ≤ l.length := by
  induction l with
  | nil => exact Nat.le_refl 0
  | cons q qs ih =>
    simp only [findFirstGE, List.length_cons]
    split_ifs <;> omega

theorem findFirstGE_lt (T : ℤ) (l : List ℤ) :
    ∀ i, i < findFirstGE T l → l.getD i 0 < T := by
  induction l with
  | nil => intro i h; simp [findFirstGE] at h
  | cons q qs ih =>
    intro i h
    simp only [findFirstGE] at h
    by_cases hq : T ≤ q
    · rw [if_pos hq] at h
      omega
    · rw [if_neg hq] at h
      cases i with
      | zero =>
        rw [List.getD_cons_zero]
        omega
      | succ i =>
        rw [List.getD_cons_succ]
        exact ih i (by omega)

theorem findFirstGE_spec (T : ℤ) (l : List ℤ)
    (h : findFirstGE T l < l.length) : T ≤ l.getD (findFirstGE T l) 0 := by
  induction l with
  | nil => simp [findFirstGE] at h
  | cons q qs ih =>
    by_cases hq : T ≤ q
    · simp [findFirstGE, hq]
    · simp only [findFirstGE, if_neg hq, List.length_cons] at h ⊢
      rw [List.getD_cons_succ]
      exact ih (by omega)

theorem findLastGE_ge (T : ℤ) (l : List ℤ) : -1 ≤ findLastGE T l := by
  induction l with
  | nil => simp [findLastGE]
  | cons q qs ih =>
    simp only [findLastGE]
    split_ifs <;> omega

theorem findLastGE_lt_length (T : ℤ) (l : List ℤ) :
    findLastGE T l < (l.length : ℤ) := by
  induction l with
  | nil => simp [findLastGE]
  | cons q qs ih =>
    simp only [findLastGE, List.length_cons]
    split_ifs <;> push_cast <;> omega

theorem findLastGE_spec (T : ℤ) (l : List ℤ) (h : 0 ≤ findLastGE T l) :
    T ≤ l.getD (findLastGE T l).toNat 0 := by
  induction l with
  | nil => simp [findLastGE] at h
  | cons q qs ih =>
    simp only [findLastGE] at h ⊢
    split_ifs with h1 h2
    · have h3 : ((findLastGE T qs) + 1).toNat = (findLastGE T qs).toNat + 1 := by
        omega
      rw [h3, List.getD_cons_succ]
      exact ih h1
    · rw [show ((0 : ℤ)).toNat = 0 from rfl, List.getD_cons_zero]
      exact h2
    · rw [if_neg h1, if_neg h2] at h
      omega

theorem findLastGE_last (T : ℤ) (l : List ℤ) :
    ∀ i : ℕ, findLastGE T l < (i : ℤ) → i < l.length → l.getD i 0 < T := by
  induction l with
  | nil => intro i h1 h2; simp at h2
  | cons q qs ih =>
    intro i h1 h2
    simp only [findLastGE] at h1
    cases i with
    | zero =>
      rw [List.getD_cons_zero]
      split_ifs at h1 with hr hq <;> omega
    | succ i =>
      rw [List.getD_cons_succ]
      refine ih i ?_ (by simpa using h2)
      split_ifs at h1 with hr hq <;> push_cast at h1 ⊢ <;> omega

/-- C7: whenever the window returned by `trim_ends` is non-empty, its
first and last bases meet the threshold; every index before the start
and every index at or after the end is below the threshold; internal
bases strictly between the two flanks stay inside the returned range
regardless of their quality; and the result is `(0, 0)` when no base
meets the threshold. -/
theorem trim_ends_correct (quals : List ℤ) (T : ℤ) :
    ((trim_ends quals T).1 < (trim_ends quals T).2 →
      T ≤ quals.getD (trim_ends quals T).1 0 ∧
      T ≤ quals.getD ((trim_ends quals T).2 - 1) 0) ∧
    (∀ i, i < (trim_ends quals T).1 → quals.getD i 0 < T) ∧
    (∀ i, (trim_ends quals T).2 ≤ i → i < quals.length → quals.getD i 0 < T) ∧
    (∀ i, (trim_ends quals T).1 < i → i < (trim_ends quals T).2 - 1 →
      (trim_ends quals T).1 ≤ i ∧ i < (trim_ends quals T).2) ∧
    ((∀ i, i < quals.length → quals.getD i 0 < T) → trim_ends quals T = (0, 0)) := by
  by_cases hq : quals = []
  · subst hq
    refine ⟨fun h => by simp [trim_ends] at h, ?_, ?_, ?_, fun _ => rfl⟩
    · intro i hi
      simp [trim_ends] at hi
    · intro i h1 h2
      simp at h2
    · intro i h1 h2
      simp [trim_ends] at h1 h2
  · by_cases hg : quals.length ≤ findFirstGE T quals ∨ findLastGE T quals < 0 ∨
        findLastGE T quals < (findFirstGE T quals : ℤ)
    · have ht : trim_ends quals T = (0, 0) := by
        simp only [trim_ends, if_neg hq]
        rw [if_pos hg]
      have hall : ∀ i, i < quals.length → quals.getD i 0 < T := by
        intro i hi
        by_cases hs : quals.length ≤ findFirstGE T quals
        · exact findFirstGE_lt T quals i (by omega)
        · rcases hg with h1 | h2 | h3
          · omega
          · exact findLastGE_last T quals i (by omega) hi
          · exfalso
            have hspec := findFirstGE_spec T quals (by omega)
            have hlast := findLastGE_last T quals (findFirstGE T quals)
              (by omega) (by omega)
            omega
      rw [ht]
      dsimp only
      refine ⟨fun h => absurd h (by omega), fun i hi => absurd hi (by omega),
        fun i _ hi => hall i hi, fun i h1 h2 => by omega, fun _ => rfl⟩
    · have hs : findFirstGE T quals < quals.length := by
        rcases Nat.lt_or_ge (findFirstGE T quals) quals.length with h | h
        · exact h
        · exact absurd (Or.inl h) hg
      have he0 : 0 ≤ findLastGE T quals := by
        rcases le_or_lt 0 (findLastGE T quals) with h | h
        · exact h
        · exact absurd (Or.inr (Or.inl h)) hg
      have hse : (findFirstGE T quals : ℤ) ≤ findLastGE T quals := by
        rcases le_or_lt (findFirstGE T quals : ℤ) (findLastGE T quals) with h | h
        · exact h
        · exact absurd (Or.inr (Or.inr h)) hg
      have ht : trim_ends quals T =
          (findFirstGE T quals, (findLastGE T quals + 1).toNat) := by
        simp only [trim_ends, if_neg hq]
        rw [if_neg hg]
      rw [ht]
      dsimp only
      have hlt := findLastGE_lt_length T quals
      refine ⟨?_, ?_, ?_, ?_, ?_⟩
      · intro _
        constructor
        · exact findFirstGE_spec T quals hs
        · have h3 : (findLastGE T quals + 1).toNat - 1 = (findLastGE T quals).toNat := by
            omega
          rw [h3]
          exact findLastGE_spec T quals he0
      · intro i hi
        exact findFirstGE_lt T quals i hi
      · intro i h1 h2
        exact findLastGE_last T quals i (by omega) h2
      · intro i h1 h2
        omega
      · intro hall
        have h1 := hall (findFirstGE T quals) hs
        have h2 := findFirstGE_spec T quals hs
        omega

/-- Witness for C7: on the documented example
`trim_ends [15, 25, 25, 15] 20 = (1, 3)` the two flanks meet the
threshold and the clipped first base is below it, and on an
all-low-quality read the result is `(0, 0)`. -/
theorem trim_ends_correct_witness :
    ((20 : ℤ) ≤ ([15, 25, 25, 15] : List ℤ).getD
        (trim_ends [15, 25, 25, 15] 20).1 0 ∧
      (20 : ℤ) ≤ ([15, 25, 25, 15] : List ℤ).getD
        ((trim_ends [15, 25, 25, 15] 20).2 - 1) 0) ∧
    ([15, 25, 25, 15] : List ℤ).getD 0 0 < (20 : ℤ) ∧
    trim_ends [10, 10, 10, 10] 20 = (0, 0) := by
  refine ⟨(trim_ends_correct [15, 25, 25, 15] 20).1 (by decide),
    (trim_ends_correct [15, 25, 25, 15] 20).2.1 0 (by decide),
    (trim_ends_correct [10, 10, 10, 10] 20).2.2.2.2 ?_⟩
  intro i hi
  have hi4 : i < 4 := by simpa using hi
  interval_cases i <;> decide

/-! ## Dispatch and validation behaviour of `apply_trim` -/

/-- C2 counterexample: the dispatch accepts the method string `"mott"`,
not `"max-window"`: calling with `"max-window"` raises, and calling with
`"mott"` (a string other than `"max-window"` and `"ends"`) succeeds. -/
theorem apply_trim_method_cex :
    apply_trim ['A'] [30] "max-window" 20 =
      Except.error "Unknown trimming method: max-window" ∧
    apply_trim ['A'] [30] "mott" 20 = Except.ok (['A'], [30], 0, 1) := by
  exact ⟨rfl, rfl⟩

/-- C2 (amended): `apply_trim` fails with `ValueError` for every method
string other than `"mott"` and `"ends"`, and for exactly those two it
dispatches to `trim_mott` respectively `trim_ends` and slices sequence
and qualities by the returned half-open range. -/
theorem apply_trim_dispatch (seq : List Char) (quals : List ℤ)
    (method : String) (threshold : ℤ) :
    (method ≠ "mott" → method ≠ "ends" →
      apply_trim seq quals method threshold =
        Except.error ("Unknown trimming method: " ++ method)) ∧
    apply_trim seq quals "mott" threshold =
      Except.ok (pySliceNat seq (trim_mott quals threshold).1 (trim_mott quals threshold).2,
        pySliceNat quals (trim_mott quals threshold).1 (trim_mott quals threshold).2,
        (trim_mott quals threshold).1, (trim_mott quals threshold).2) ∧
    apply_trim seq quals "ends" threshold =
      Except.ok (pySliceNat seq (trim_ends quals threshold).1 (trim_ends quals threshold).2,
        pySliceNat quals (trim_ends quals threshold).1 (trim_ends quals threshold).2,
        (trim_ends quals threshold).1, (trim_ends quals threshold).2) := by
  refine ⟨?_, rfl, rfl⟩
  intro h1 h2
  simp [apply_trim, h1, h2]

/-- Witness for C2 (amended): an unknown method string raises, and the
two valid methods return sliced results on a concrete read. -/
theorem apply_trim_dispatch_witness :
    apply_trim ['A'] [30] "invalid" 20 =
      Except.error "Unknown trimming method: invalid" :=
  (apply_trim_dispatch ['A'] [30] "invalid" 20).1 (by decide) (by decide)

/-- C3 counterexample: with a 1-base sequence and a 2-entry quality
vector, `apply_trim` does not fail; it returns a result whose trimmed
sequence was silently truncated by the quality-derived slice `[0, 2)`. -/
theorem apply_trim_no_length_check_cex :
    (['A'] : List Char).length ≠ ([30, 30] : List ℤ).length ∧
    apply_trim ['A'] [30, 30] "mott" 20 = Except.ok (['A'], [30, 30], 0, 2) := by
  exact ⟨by decide, rfl⟩

/-- C3 (amended): `apply_trim` performs no length validation: even when
the sequence and quality lengths differ it succeeds for both valid
methods, slicing each input by the range computed from the qualities
alone. -/
theorem apply_trim_mismatched_ok (seq : List Char) (quals : List ℤ)
    (threshold : ℤ) (h : seq.length ≠ quals.length) :
    (∃ out, apply_trim seq quals "mott" threshold = Except.ok out) ∧
    (∃ out, apply_trim seq quals "ends" threshold = Except.ok out) := by
  exact ⟨⟨_, rfl⟩, ⟨_, rfl⟩⟩

/-- Witness for C3 (amended) at a concrete mismatched input. -/
theorem apply_trim_mismatched_ok_witness :
    (∃ out, apply_trim ['A'] [30, 30] "mott" 20 = Except.ok out) ∧
    (∃ out, apply_trim ['A'] [30, 30] "ends" 20 = Except.ok out) :=
  apply_trim_mismatched_ok ['A'] [30, 30] 20 (by decide)

/-! ## The ordered decision table of the classifier -/

/-- C4: rule 1 (low quality or low SNR) always yields an `N` no-call
flagged `low_quality`; when no earlier rule matches and
`spr ≥ spr_unbalanced`, rule 6 yields an `N` no-call flagged
`unclear_primary`; and concretely, primary `A` at 100 against secondary
`G` at 90 with quality 25 and adequate SNR is an `N` no-call flagged
`unclear_primary`.  The code records the no-call mode as the string
`"N"` (the spec's `no-call`). -/
theorem calling_rule1_rule6 (cfg : AmbiguousCallingConfig) (b1 b2 : Char)
    (H1 H2 spr snr : ℚ) (quality : ℤ) :
    ((quality < cfg.q_min_noise ∨ snr < cfg.snr_min) →
      applyCallingCriteria cfg b1 b2 H1 H2 spr snr quality =
        ('N', "N", alleleFracOf H1 H2, ["low_quality"])) ∧
    (¬ (quality < cfg.q_min_noise ∨ snr < cfg.snr_min) →
      ¬ (cfg.q_confident ≤ quality ∧ spr < cfg.spr_noise_max) →
      ¬ ((cfg.spr_noise_max ≤ spr ∧ spr < cfg.spr_het_low) ∧ cfg.q_ambig ≤ quality) →
      ¬ ((cfg.spr_het_low ≤ spr ∧ spr ≤ cfg.spr_het_high) ∧
          cfg.q_ambig ≤ quality ∧ cfg.snr_min ≤ snr) →
      ¬ ((cfg.spr_het_high < spr ∧ spr < cfg.spr_unbalanced) ∧ cfg.q_ambig ≤ quality) →
      cfg.spr_unbalanced ≤ spr →
      applyCallingCriteria cfg b1 b2 H1 H2 spr snr quality =
        ('N', "N", alleleFracOf H1 H2, ["unclear_primary"])) ∧
    (∀ snr0 : ℚ, 4 ≤ snr0 →
      callWithIntensities defaultConfig 'A' 'G' 100 90 snr0 25 =
        ('N', "N", 10/19, ["unclear_primary"])) := by
  refine ⟨?_, ?_, ?_⟩
  · intro h
    unfold applyCallingCriteria
    rw [if_pos h]
  · intro h1 h2 h3 h4 h5 h6
    unfold applyCallingCriteria
    rw [if_neg h1, if_neg h2, if_neg h3, if_neg h4, if_neg h5, if_pos h6]
  · intro snr0 h
    have h4 : ¬ snr0 < 4 := not_lt.mpr h
    simp only [callWithIntensities, applyCallingCriteria, alleleFracOf, defaultConfig]
    norm_num [h4]

/-- Witness for C4: rule 1 at quality 5, rule 6 at SPR `9/10`, and the
concrete scenario at SNR 5. -/
theorem calling_rule1_rule6_witness :
    applyCallingCriteria defaultConfig 'A' 'C' 50 10 (1/5) 5 5 =
      ('N', "N", alleleFracOf 50 10, ["low_quality"]) ∧
    applyCallingCriteria defaultConfig 'A' 'G' 100 90 (9/10) 5 25 =
      ('N', "N", alleleFracOf 100 90, ["unclear_primary"]) ∧
    callWithIntensities defaultConfig 'A' 'G' 100 90 5 25 =
      ('N', "N", 10/19, ["unclear_primary"]) := by
  refine ⟨(calling_rule1_rule6 defaultConfig 'A' 'C' 50 10 (1/5) 5 5).1
      (by norm_num [defaultConfig]),
    (calling_rule1_rule6 defaultConfig 'A' 'G' 100 90 (9/10) 5 25).2.1
      (by norm_num [defaultConfig]) (by norm_num [defaultConfig])
      (by norm_num [defaultConfig]) (by norm_num [defaultConfig])
      (by norm_num [defaultConfig]) (by norm_num [defaultConfig]),
    (calling_rule1_rule6 defaultConfig 'A' 'G' 100 90 1 5 25).2.2 5 (by norm_num)⟩

/-- C5: rule 4 (balanced heterozygous mixture) yields the IUPAC code of
the two bases in `ambiguous` mode flagged `heterozygous` whenever no
earlier rule matched, `spr` lies in `[spr_het_low, spr_het_high]`,
quality is at least `q_ambig` and SNR at least `snr_min`; concretely,
`A` at 100 against `G` at 50 with quality 25 under the default clonal
configuration is called `R` in `ambiguous` mode with flag
`heterozygous` and allele fraction `100/150 = 2/3`. -/
theorem calling_rule4 (cfg : AmbiguousCallingConfig) (b1 b2 : Char)
    (H1 H2 spr snr : ℚ) (quality : ℤ) :
    (¬ (quality < cfg.q_min_noise ∨ snr < cfg.snr_min) →
      ¬ (cfg.q_confident ≤ quality ∧ spr < cfg.spr_noise_max) →
      ¬ ((cfg.spr_noise_max ≤ spr ∧ spr < cfg.spr_het_low) ∧ cfg.q_ambig ≤ quality) →
      ((cfg.spr_het_low ≤ spr ∧ spr ≤ cfg.spr_het_high) ∧
          cfg.q_ambig ≤ quality ∧ cfg.snr_min ≤ snr) →
      applyCallingCriteria cfg b1 b2 H1 H2 spr snr quality =
        (getIupacCode b1 b2, "ambiguous", alleleFracOf H1 H2, ["heterozygous"])) ∧
    (∀ snr0 : ℚ, 4 ≤ snr0 →
      callWithIntensities defaultConfig 'A' 'G' 100 50 snr0 25 =
        ('R', "ambiguous", 2/3, ["heterozygous"])) := by
  constructor
  · intro h1 h2 h3 h4
    unfold applyCallingCriteria
    rw [if_neg h1, if_neg h2, if_neg h3, if_pos h4]
  · intro snr0 h
    have h4 : ¬ snr0 < 4 := not_lt.mpr h
    have hiupac : getIupacCode 'A' 'G' = 'R' := by decide
    simp only [callWithIntensities, applyCallingCriteria, alleleFracOf, defaultConfig,
      hiupac]
    norm_num [h4, h]

/-- Witness for C5: rule 4 and the concrete heterozygous scenario at
SNR 5. -/
theorem calling_rule4_witness :
    applyCallingCriteria defaultConfig 'A' 'G' 100 50 (1/2) 5 25 =
      (getIupacCode 'A' 'G', "ambiguous", alleleFracOf 100 50, ["heterozygous"]) ∧
    callWithIntensities defaultConfig 'A' 'G' 100 50 5 25 =
      ('R', "ambiguous", 2/3, ["heterozygous"]) := by
  refine ⟨(calling_rule4 defaultConfig 'A' 'G' 100 50 (1/2) 5 25).1
      (by norm_num [defaultConfig]) (by norm_num [defaultConfig])
      (by norm_num [defaultConfig]) (by norm_num [defaultConfig]),
    (calling_rule4 defaultConfig 'A' 'G' 100 50 1 5 25).2 5 (by norm_num)⟩

/-! ## Fallback calling without trace data -/

/-- C6: fallback classification never fails (it yields one call per
position); every produced call carries the `no_trace_data` flag and
allele fraction 1; positions below `q_min_noise` become `N` no-calls
(mode `"N"` in the code) flagged `low_quality` and `no_trace_data`; all
other positions call the original base in `single` mode, with the
additional `moderate_quality` flag exactly when quality is below
`q_confident`. -/
theorem fallback_calling_correct (cfg : AmbiguousCallingConfig)
    (seq : List Char) (quals : List ℤ) :
    (fallbackCalling cfg seq quals).length = seq.length ∧
    ∀ bc ∈ fallbackCalling cfg seq quals,
      bc.allele_fraction = 1 ∧
      "no_trace_data" ∈ bc.flags ∧
      (bc.quality < cfg.q_min_noise →
        bc.called_base = 'N' ∧ bc.call_mode = "N" ∧
        bc.flags = ["low_quality", "no_trace_data"]) ∧
      (cfg.q_min_noise ≤ bc.quality →
        bc.called_base = bc.primary_base ∧ bc.call_mode = "single" ∧
        (cfg.q_confident ≤ bc.quality → bc.flags = ["no_trace_data"]) ∧
        (bc.quality < cfg.q_confident →
          bc.flags = ["moderate_quality", "no_trace_data"])) := by
  constructor
  · simp [fallbackCalling]
  · intro bc hbc
    simp only [fallbackCalling, List.mem_map] at hbc
    obtain ⟨pb, hpb, rfl⟩ := hbc
    unfold fallbackCallOne
    split_ifs with h1 h2
    · exact ⟨rfl, by simp, fun _ => ⟨rfl, rfl, rfl⟩,
        fun hq => absurd hq (not_le.mpr h1)⟩
    · exact ⟨rfl, by simp, fun hq => absurd hq h1,
        fun _ => ⟨rfl, rfl, fun _ => rfl, fun hqc => absurd h2 (not_le.mpr hqc)⟩⟩
    · exact ⟨rfl, by simp, fun hq => absurd hq h1,
        fun _ => ⟨rfl, rfl, fun hqc => absurd hqc h2, fun _ => rfl⟩⟩

/-- Witness for C6 on a concrete two-base read: the low-quality position
becomes an `N` no-call and the confident position keeps its base. -/
theorem fallback_calling_correct_witness :
    ((fallbackCalling defaultConfig ['A', 'C'] [5, 35]).getD 0 default).allele_fraction = 1 ∧
    ((fallbackCalling defaultConfig ['A', 'C'] [5, 35]).getD 0 default).called_base = 'N' ∧
    ((fallbackCalling defaultConfig ['A', 'C'] [5, 35]).getD 1 default).call_mode = "single" := by
  have h0 := (fallback_calling_correct defaultConfig ['A', 'C'] [5, 35]).2
    ((fallbackCalling defaultConfig ['A', 'C'] [5, 35]).getD 0 default) (by decide)
  have h1 := (fallback_calling_correct defaultConfig ['A', 'C'] [5, 35]).2
    ((fallbackCalling defaultConfig ['A', 'C'] [5, 35]).getD 1 default) (by decide)
  exact ⟨h0.1, (h0.2.2.1 (by decide)).1, ((h1.2.2.2 (by decide)).2.1)⟩

/-! ## Ratio invariants of trace-based classification -/

theorem acc_frac (cfg : AmbiguousCallingConfig) (b1 b2 : Char)
    (H1 H2 spr snr : ℚ) (quality : ℤ) :
    (applyCallingCriteria cfg b1 b2 H1 H2 spr snr quality).2.2.1 =
      alleleFracOf H1 H2 := by
  unfold applyCallingCriteria
  split_ifs <;> rfl

theorem mem_pySlice {l : List α} {a b : ℤ} {x : α} (h : x ∈ pySlice l a b) :
    x ∈ l := by
  simp only [pySlice] at h
  exact List.mem_of_mem_take (List.mem_of_mem_drop h)

theorem getIntensity_nonneg {trace : List ℚ} (h : ∀ x ∈ trace, 0 ≤ x)
    (p : ℤ) (w : ℕ) : 0 ≤ getIntensity trace p w := by
  apply List.sum_nonneg
  intro x hx
  exact h x (mem_pySlice hx)

theorem intensities_nonneg {tr : TraceBundle}
    (hA : ∀ x ∈ tr.A, 0 ≤ x) (hC : ∀ x ∈ tr.C, 0 ≤ x)
    (hG : ∀ x ∈ tr.G, 0 ≤ x) (hT : ∀ x ∈ tr.T, 0 ≤ x)
    (pos w : ℕ) :
    ∀ xy ∈ getIntensitiesAtPosition tr pos w, 0 ≤ xy.2 := by
  intro xy hxy
  unfold getIntensitiesAtPosition at hxy
  split_ifs at hxy with h
  · simp only [List.mem_cons, List.not_mem_nil, or_false] at hxy
    rcases hxy with rfl | rfl | rfl | rfl <;> norm_num
  · simp only [List.mem_cons, List.not_mem_nil, or_false] at hxy
    rcases hxy with rfl | rfl | rfl | rfl
    · exact getIntensity_nonneg hA _ _
    · exact getIntensity_nonneg hC _ _
    · exact getIntensity_nonneg hG _ _
    · exact getIntensity_nonneg hT _ _

theorem mem_insertDesc {x y : Char × ℚ} {l : List (Char × ℚ)}
    (h : y ∈ insertDesc x l) : y = x ∨ y ∈ l := by
  induction l with
  | nil => simpa [insertDesc] using h
  | cons z zs ih =>
    simp only [insertDesc] at h
    split_ifs at h with hz
    · simp only [List.mem_cons] at h ⊢
      tauto
    · simp only [List.mem_cons] at h ⊢
      rcases h with rfl | h
      · tauto
      · rcases ih h with rfl | h <;> tauto

theorem pairwise_insertDesc {x : Char × ℚ} {l : List (Char × ℚ)}
    (h : l.Pairwise (fun a b => b.2 ≤ a.2)) :
    (insertDesc x l).Pairwise (fun a b => b.2 ≤ a.2) := by
  induction l with
  | nil => simp [insertDesc]
  | cons z zs ih =>
    rcases List.pairwise_cons.mp h with ⟨hz, hzs⟩
    simp only [insertDesc]
    split_ifs with hle
    · refine List.pairwise_cons.mpr ⟨?_, h⟩
      intro b hb
      rcases List.mem_cons.mp hb with rfl | hb
      · exact hle
      · exact le_trans (hz b hb) hle
    · refine List.pairwise_cons.mpr ⟨?_, ih hzs⟩
      intro b hb
      rcases mem_insertDesc hb with rfl | hb
      · exact le_of_lt (lt_of_not_le hle)
      · exact hz b hb

theorem length_insertDesc (x : Char × ℚ) (l : List (Char × ℚ)) :
    (insertDesc x l).length = l.length + 1 := by
  induction l with
  | nil => rfl
  | cons z zs ih =>
    simp only [insertDesc]
    split_ifs <;> simp [ih]

theorem mem_sortDesc {y : Char × ℚ} {l : List (Char × ℚ)}
    (h : y ∈ sortDesc l) : y ∈ l := by
  induction l with
  | nil => simpa [sortDesc] using h
  | cons x xs ih =>
    simp only [sortDesc] at h
    rcases mem_insertDesc h with rfl | h
    · exact List.mem_cons_self _ _
    · exact List.mem_cons_of_mem _ (ih h)

theorem pairwise_sortDesc (l : List (Char × ℚ)) :
    (sortDesc l).Pairwise (fun a b => b.2 ≤ a.2) := by
  induction l with
  | nil => simp [sortDesc]
  | cons x xs ih => exact pairwise_insertDesc ih

theorem length_sortDesc (l : List (Char × ℚ)) :
    (sortDesc l).length = l.length := by
  induction l with
  | nil => rfl
  | cons x xs ih =>
    simp only [sortDesc, length_insertDesc, ih, List.length_cons]

theorem length_intensities (tr : TraceBundle) (pos w : ℕ) :
    (getIntensitiesAtPosition tr pos w).length = 4 := by
  unfold getIntensitiesAtPosition
  split_ifs <;> rfl

theorem getD_zero_mem {l : List α} (d : α) (h : l ≠ []) : l.getD 0 d ∈ l := by
  cases l with
  | nil => exact absurd rfl h
  | cons a as => simp [List.getD]

/-- C8 counterexample: with raw trace values of both signs (one channel
at 4, three at -1 around the single peak), the produced `BaseCall` has
positive primary intensity but a negative SPR and an allele fraction of
`4/3 > 1`, violating the claimed invariant for arbitrary trace
arrays. -/
theorem ratio_invariant_cex :
    0 < ((callBases defaultConfig cexTrace ['A'] [30]).getD 0 default).primary_intensity ∧
    ((callBases defaultConfig cexTrace ['A'] [30]).getD 0 default).spr < 0 ∧
    1 < ((callBases defaultConfig cexTrace ['A'] [30]).getD 0 default).allele_fraction := by
  have h : callBases defaultConfig cexTrace ['A'] [30] =
      [{ position := 0, called_base := 'N', primary_base := 'A',
         secondary_base := 'C', primary_intensity := 4,
         secondary_intensity := -1, spr := -1/4, snr := 0, quality := 30,
         call_mode := "N", allele_fraction := 4/3,
         flags := ["low_quality"] }] := by
    norm_num [callBases, List.enum, List.enumFrom, callPosition, cexTrace,
      getIntensitiesAtPosition, getIntensity, pySlice, max_def, min_def,
      sortDesc, insertDesc, calculateSnr, noiseWindow, applyCallingCriteria,
      alleleFracOf, defaultConfig, List.getD]
  rw [h]
  norm_num [List.getD]

/-- C8 (amended): for every `BaseCall` produced by the trace-based
classifier from traces whose raw samples are all non-negative, the
allele fraction lies in `[0, 1]` and is `0` when the total signal is
not positive, and the SPR lies in `[0, 1]` when the primary intensity
is positive and is `0` otherwise. -/
theorem callBases_ratio_bounds (cfg : AmbiguousCallingConfig)
    (tr : TraceBundle) (sequence : List Char) (qualities : List ℤ)
    (hA : ∀ x ∈ tr.A, 0 ≤ x) (hC : ∀ x ∈ tr.C, 0 ≤ x)
    (hG : ∀ x ∈ tr.G, 0 ≤ x) (hT : ∀ x ∈ tr.T, 0 ≤ x) :
    ∀ bc ∈ callBases cfg tr sequence qualities,
      (0 ≤ bc.allele_fraction ∧ bc.allele_fraction ≤ 1) ∧
      (bc.primary_intensity + bc.secondary_intensity ≤ 0 →
        bc.allele_fraction = 0) ∧
      (0 < bc.primary_intensity → 0 ≤ bc.spr ∧ bc.spr ≤ 1) ∧
      (bc.primary_intensity ≤ 0 → bc.spr = 0) := by
  intro bc hbc
  simp only [callBases, List.mem_map] at hbc
  obtain ⟨pb, hpb, rfl⟩ := hbc
  have hnn := intensities_nonneg hA hC hG hT pb.1 cfg.peak_window
  have hlen : (sortDesc (getIntensitiesAtPosition tr pb.1 cfg.peak_window)).length = 4 := by
    rw [length_sortDesc, length_intensities]
  set s := sortDesc (getIntensitiesAtPosition tr pb.1 cfg.peak_window) with hs
  have e0 : s.getD 0 ('A', 0) = s[0] :=
    List.getD_eq_getElem s ('A', 0) (show 0 < s.length by omega)
  have e1 : s.getD 1 ('A', 0) = s[1] :=
    List.getD_eq_getElem s ('A', 0) (show 1 < s.length by omega)
  have hm0 : (s.getD 0 ('A', 0)) ∈ s := by
    rw [e0]; exact List.getElem_mem _
  have hm1 : (s.getD 1 ('A', 0)) ∈ s := by
    rw [e1]; exact List.getElem_mem _
  have hH1 : 0 ≤ (s.getD 0 ('A', 0)).2 := hnn _ (mem_sortDesc (hs ▸ hm0))
  have hH2 : 0 ≤ (s.getD 1 ('A', 0)).2 := hnn _ (mem_sortDesc (hs ▸ hm1))
  have h21 : (s.getD 1 ('A', 0)).2 ≤ (s.getD 0 ('A', 0)).2 := by
    rw [e0, e1]
    exact List.pairwise_iff_getElem.mp (hs ▸ pairwise_sortDesc _) 0 1
      (by omega) (by omega) (by omega)
  simp only [callPosition, acc_frac, ← hs]
  refine ⟨?_, ?_, ?_, ?_⟩
  · unfold alleleFracOf
    split_ifs with ht
    · constructor
      · exact div_nonneg hH1 (le_of_lt ht)
      · rw [div_le_one ht]
        linarith
    · norm_num
  · intro h
    unfold alleleFracOf
    rw [if_neg (not_lt.mpr h)]
  · intro h
    rw [if_pos h]
    exact ⟨div_nonneg hH2 (le_of_lt h), (div_le_one h).mpr h21⟩
  · intro h
    rw [if_neg (not_lt.mpr h)]

/-- Witness for C8 (amended) on a concrete non-negative trace bundle. -/
theorem callBases_ratio_bounds_witness :
    0 ≤ ((callBases defaultConfig c8WitnessTrace ['A'] [30]).getD 0 default).allele_fraction ∧
    ((callBases defaultConfig c8WitnessTrace ['A'] [30]).getD 0 default).allele_fraction ≤ 1 := by
  have hne : callBases defaultConfig c8WitnessTrace ['A'] [30] ≠ [] := by
    have hl : (callBases defaultConfig c8WitnessTrace ['A'] [30]).length = 1 := by
      simp [callBases]
    intro hc
    rw [hc] at hl
    simp at hl
  have h := callBases_ratio_bounds defaultConfig c8WitnessTrace ['A'] [30]
    (by norm_num [c8WitnessTrace]) (by norm_num [c8WitnessTrace])
    (by norm_num [c8WitnessTrace]) (by norm_num [c8WitnessTrace])
    ((callBases defaultConfig c8WitnessTrace ['A'] [30]).getD 0 default)
    (getD_zero_mem default hne)
  exact h.1

/-! ## QC metrics -/

theorem count_GC_eq (l : List Char) :
    l.count 'G' + l.count 'C' =
      l.countP (fun c => decide (c = 'G' ∨ c = 'C')) := by
  induction l with
  | nil => rfl
  | cons c cs ih =>
    rw [List.count_cons, List.count_cons, List.countP_cons, ← ih]
    by_cases hg : c = 'G'
    · rw [if_pos (by simp [hg]), if_neg (by simp [hg]), if_pos (by simp [hg])]
      omega
    · by_cases hc : c = 'C'
      · rw [if_neg (by simp [hg]), if_pos (by simp [hc]), if_pos (by simp [hc])]
        omega
      · rw [if_neg (by simp [hg]), if_neg (by simp [hc]),
          if_neg (by simp [hg, hc])]
        omega

theorem count_nonN_eq (l : List Char) :
    (l.length : ℤ) - (l.count 'N' : ℤ) =
      (l.countP (fun c => decide (c ≠ 'N')) : ℤ) := by
  have h : l.count 'N' + l.countP (fun c => decide (c ≠ 'N')) = l.length := by
    induction l with
    | nil => rfl
    | cons c cs ih =>
      rw [List.count_cons, List.countP_cons, List.length_cons]
      by_cases hc : c = 'N'
      · rw [if_pos (by simp [hc]), if_neg (by simp [hc])]
        omega
      · rw [if_neg (by simp [hc]), if_pos (by simp [hc])]
        omega
  omega

/-- C9: the GC percentage of the QC metrics equals
`100 * (G count + C count) / (length - N count)` over the uppercased
sequence — equivalently `100` times the GC count divided by the number
of non-N bases — and is `0` when the sequence has no non-N base
(including the empty sequence); the reported field carries the
2-decimal rounding the code applies to every numeric output. -/
theorem gc_percent_correct (sid sf fmt : String) (seq : List Char)
    (quals : List ℤ) (ts te : ℕ) (qt ml : ℤ) :
    (computeQCMetrics sid sf fmt seq quals ts te qt ml).gc_percent =
      roundTo 2 (gcPercentOf seq) ∧
    gcPercentOf seq =
      (if 0 < (seq.map Char.toUpper).countP (fun c => decide (c ≠ 'N')) then
        100 * (((seq.map Char.toUpper).countP
            (fun c => decide (c = 'G' ∨ c = 'C')) : ℚ)) /
          (((seq.map Char.toUpper).countP (fun c => decide (c ≠ 'N')) : ℚ))
      else 0) := by
  constructor
  · rfl
  · simp only [gcPercentOf]
    have hlen : (seq.map Char.toUpper).length = seq.length :=
      List.length_map _ _
    have key : ((seq.length : ℤ) - ((seq.map Char.toUpper).count 'N' : ℤ)) =
        ((seq.map Char.toUpper).countP (fun c => decide (c ≠ 'N')) : ℤ) := by
      rw [← hlen]
      exact count_nonN_eq _
    have key2 := count_GC_eq (seq.map Char.toUpper)
    rw [key, ← key2]
    by_cases h : 0 < (seq.map Char.toUpper).countP (fun c => decide (c ≠ 'N'))
    · rw [if_pos (by exact_mod_cast h), if_pos h]
      push_cast
      ring
    · rw [if_neg (by exact_mod_cast h), if_neg h]

/-- C10: two `computeQCMetrics` calls that differ only in the trim
coordinates agree on every field other than `trim_start`, `trim_end`,
`trimmed_length` and `passed_minlen`: the identifiers, raw length, mean
and median quality, Q20/Q30 fractions, GC percentage, N count, expected
errors and longest high-quality stretch are computed over the full
untrimmed read. -/
theorem qc_metrics_trim_frame (sid sf fmt : String) (seq : List Char)
    (quals : List ℤ) (qt ml : ℤ) (ts1 te1 ts2 te2 : ℕ) :
    (computeQCMetrics sid sf fmt seq quals ts1 te1 qt ml).sample_id =
      (computeQCMetrics sid sf fmt seq quals ts2 te2 qt ml).sample_id ∧
    (computeQCMetrics sid sf fmt seq quals ts1 te1 qt ml).source_file =
      (computeQCMetrics sid sf fmt seq quals ts2 te2 qt ml).source_file ∧
    (computeQCMetrics sid sf fmt seq quals ts1 te1 qt ml).format =
      (computeQCMetrics sid sf fmt seq quals ts2 te2 qt ml).format ∧
    (computeQCMetrics sid sf fmt seq quals ts1 te1 qt ml).raw_length =
      (computeQCMetrics sid sf fmt seq quals ts2 te2 qt ml).raw_length ∧
    (computeQCMetrics sid sf fmt seq quals ts1 te1 qt ml).mean_q =
      (computeQCMetrics sid sf fmt seq quals ts2 te2 qt ml).mean_q ∧
    (computeQCMetrics sid sf fmt seq quals ts1 te1 qt ml).median_q =
      (computeQCMetrics sid sf fmt seq quals ts2 te2 qt ml).median_q ∧
    (computeQCMetrics sid sf fmt seq quals ts1 te1 qt ml).pct_q20 =
      (computeQCMetrics sid sf fmt seq quals ts2 te2 qt ml).pct_q20 ∧
    (computeQCMetrics sid sf fmt seq quals ts1 te1 qt ml).pct_q30 =
      (computeQCMetrics sid sf fmt seq quals ts2 te2 qt ml).pct_q30 ∧
    (computeQCMetrics sid sf fmt seq quals ts1 te1 qt ml).gc_percent =
      (computeQCMetrics sid sf fmt seq quals ts2 te2 qt ml).gc_percent ∧
    (computeQCMetrics sid sf fmt seq quals ts1 te1 qt ml).n_count =
      (computeQCMetrics sid sf fmt seq quals ts2 te2 qt ml).n_count ∧
    (computeQCMetrics sid sf fmt seq quals ts1 te1 qt ml).expected_errors =
      (computeQCMetrics sid sf fmt seq quals ts2 te2 qt ml).expected_errors ∧
    (computeQCMetrics sid sf fmt seq quals ts1 te1 qt ml).hq_longest_stretch_len =
      (computeQCMetrics sid sf fmt seq quals ts2 te2 qt ml).hq_longest_stretch_len :=
  ⟨rfl, rfl, rfl, rfl, rfl, rfl, rfl, rfl, rfl, rfl, rfl, rfl⟩

end SangerQC
